import Mathlib

/-!
Shallow embedding of `src/args.h` (single-header command-line lookup library).

C strings are modelled as `List Char` (C argv strings cannot contain NUL, so
the observable value of a `char *` is exactly its character list up to the
terminator).  The global store `args__argc/args__argv` is modelled by passing
the argument vector explicitly; the uninitialized store (static zero
initialization: `argc = 0`, `argv = NULL`) corresponds to the empty list.

libc routines used by the source (`strtok`, `strcmp`, `strncmp`, `strcasecmp`,
`strchr`, `isdigit`, `atoi`) are given faithful ASCII models below.  `atof` is
kept as a parameter of the float query: the repository's code never inspects
the parsed value, it only stores it, so every claim about `args_float` holds
uniformly in the conversion function.
-/

namespace ArgsH

abbrev CStr := List Char

/-- `strtok(arg_copy, "|")` loop: the alias spec split at `'|'`, with empty
tokens dropped (strtok skips runs of separators and never yields `""`). -/
def splitFlags (s : CStr) : List CStr :=
  (List.splitOn '|' s).filter (fun t => t ≠ [])

/-- C `tolower` in the default locale: only ASCII uppercase is mapped. -/
def lowerStr (s : CStr) : CStr := s.map Char.toLower

/-- `strcasecmp(s, t) == 0`. -/
def eqCI (s t : CStr) : Bool := lowerStr s == lowerStr t

/-- `true_values` from `args_bool`. -/
def trueWords : List CStr := ["true", "on", "yes", "y", "1"].map String.toList

/-- `false_values` from `args_bool`. -/
def falseWords : List CStr := ["false", "off", "no", "n", "0"].map String.toList

/-- case-insensitive membership test of the truthy set (bare-form branch). -/
def isTrueCI (s : CStr) : Bool := trueWords.any (fun w => eqCI s w)

/-- case-insensitive membership test of the falsy set (bare-form branch). -/
def isFalseCI (s : CStr) : Bool := falseWords.any (fun w => eqCI s w)

/-- case-sensitive membership test of the truthy set (`=`-form branch). -/
def isTrueCS (s : CStr) : Bool := trueWords.any (fun w => s == w)

/-- case-sensitive membership test of the falsy set (`=`-form branch). -/
def isFalseCS (s : CStr) : Bool := falseWords.any (fun w => s == w)

/-- `strchr(s, '=')` followed by `value++`: the suffix after the first `'='`,
or `none` when the argument contains no `'='`. -/
def afterEq : CStr → Option CStr
  | [] => none
  | c :: cs => if c = '=' then some cs else afterEq cs

/-- the characters strictly before the first `'='` (whole string if none). -/
def beforeEq : CStr → CStr
  | [] => []
  | c :: cs => if c = '=' then [] else c :: beforeEq cs

/-- `isdigit(s[0])`: for the empty string `s[0]` is the NUL terminator. -/
def firstIsDigit : CStr → Bool
  | [] => false
  | c :: _ => c.isDigit

/-- C `isspace` in the default locale. -/
def isSpaceC (c : Char) : Bool :=
  c = ' ' || c = '\t' || c = '\n' || c = '\x0b' || c = '\x0c' || c = '\r'

/-- decimal value of the leading digit run. -/
def digitsVal : CStr → Nat → Nat
  | c :: cs, acc => if c.isDigit then digitsVal cs (acc * 10 + (c.toNat - 48)) else acc
  | [], acc => acc

/-- libc `atoi`: skip whitespace, optional sign, leading digit run; zero when
no digits follow.  Overflow (undefined in C) is not modelled; no claim
evaluates `atoi` outside `int` range. -/
def atoi (s : CStr) : Int :=
  match s.dropWhile isSpaceC with
  | '-' :: rest => -(digitsVal rest 0 : Int)
  | '+' :: rest => (digitsVal rest 0 : Int)
  | t => (digitsVal t 0 : Int)

/-- the value `args_bool` returns from its exact-match branch, as a function
of the rest of the vector (`rest.head?` is `argv[i+1]` when `i+1 < argc`):
truthy (case-insensitive) → `true`, falsy → `false`, otherwise bare presence
→ `true`. -/
def classifyNext : List CStr → Bool
  | next :: _ => if isTrueCI next then true else if isFalseCI next then false else true
  | [] => true

/-- the inner `for` loop of `args_bool` for one alias token `f`, over the
vector tail `argv[i..]` (`i ≥ 1`).  `some b` models `return b`; `none` models
falling off the loop end. -/
def boolScan (f : CStr) : List CStr → Option Bool
  | [] => none
  | c :: rest =>
    if c == f then
      some (classifyNext rest)
    else if f.isPrefixOf c then
      match afterEq c with
      | some v =>
        if isTrueCS v then some true
        else if isFalseCS v then some false
        else boolScan f rest
      | none => boolScan f rest
    else boolScan f rest

/-- the outer `strtok` loop of `args_bool`. -/
def boolFlags : List CStr → List CStr → Bool
  | [], _ => false
  | f :: fs, tail =>
    match boolScan f tail with
    | some b => b
    | none => boolFlags fs tail

/-- `args_bool` from `src/args.h`; `argv` is the registered vector including
`argv[0]` (skipped by the scan, which starts at index 1). -/
def args_bool (argv : List CStr) (arg : CStr) : Bool :=
  boolFlags (splitFlags arg) (argv.drop 1)

/-- the inner `for` loop shared by `args_int` and `args_float` for one alias
token, threading `result`.  `parse` stands for `atoi` resp. `atof`. -/
def numScan {α : Type} (parse : CStr → α) (f : CStr) : List CStr → α → α
  | [], r => r
  | c :: rest, r =>
    numScan parse f rest
      (if c == f then
        match rest with
        | next :: _ => if firstIsDigit next then parse next else r
        | [] => r
      else if f.isPrefixOf c then
        match afterEq c with
        | some v => parse v
        | none => r
      else r)

/-- the outer `strtok` loop shared by `args_int` and `args_float`. -/
def numFlags {α : Type} (parse : CStr → α) (flags : List CStr) (tail : List CStr) (r : α) : α :=
  flags.foldl (fun acc f => numScan parse f tail acc) r

/-- `args_int` from `src/args.h`. -/
def args_int (argv : List CStr) (arg : CStr) : Int :=
  numFlags atoi (splitFlags arg) (argv.drop 1) 0

/-- `args_float` from `src/args.h`, generic in the libc conversion `atof`
(with `z` the value of the C initializer `double result = 0`): the source
stores the converted value without inspecting it, so its behaviour is uniform
in `parse`. -/
def args_float {α : Type} (parse : CStr → α) (z : α) (argv : List CStr) (arg : CStr) : α :=
  numFlags parse (splitFlags arg) (argv.drop 1) z

/-- `value.takeWhile (· ≠ '"')`: the characters the quoted branch of
`args_string` keeps, i.e. the run up to the next quote or end of string. -/
def quoteCap (q : CStr) : CStr := q.takeWhile (fun c => c ≠ '"')

/-- the `else` branch of `args_string`'s loop body on one cell `c`: prefix
test, `strchr '='`, then either the quoted capture (which truncates the cell
at the terminating quote — the `*value = '\0'` store) or the literal suffix.
Returns (new result, new cell contents). -/
def strCell (f c : CStr) (r : Option CStr) : Option CStr × CStr :=
  if f.isPrefixOf c then
    match afterEq c with
    | none => (r, c)
    | some value =>
      match value with
      | [] => (some value, c)
      | v0 :: q =>
        if v0 = '"' then
          (some (quoteCap q),
           if '"' ∈ q then beforeEq c ++ '=' :: '"' :: quoteCap q else c)
        else (some value, c)
  else (r, c)

/-- the cell-content effect of `strCell` (independent of the running result). -/
def mutCell (f c : CStr) : CStr :=
  if f.isPrefixOf c then
    match afterEq c with
    | none => c
    | some value =>
      match value with
      | [] => c
      | v0 :: q =>
        if v0 = '"' then (if '"' ∈ q then beforeEq c ++ '=' :: '"' :: quoteCap q else c)
        else c
  else c

/-- the inner `for` loop of `args_string` for one alias token, over the tail
`argv[1..]`, returning the final `result` and the (possibly mutated) tail.
The first branch (`!strcmp(argv[i], flag) && i + 1 < args__argc`) captures a
pointer to the next cell; all other work happens in `strCell`. -/
def strScan (f : CStr) : List CStr → Option CStr → Option CStr × List CStr
  | [], r => (r, [])
  | c :: rest, r =>
    let p := if c == f && !rest.isEmpty then (some (rest.headD []), c) else strCell f c r
    let q := strScan f rest p.1
    (q.1, p.2 :: q.2)

/-- the outer `strtok` loop of `args_string`, threading the mutated vector. -/
def strFlags : List CStr → List CStr → Option CStr → Option CStr × List CStr
  | [], tail, r => (r, tail)
  | f :: fs, tail, r => strFlags fs (strScan f tail r).2 (strScan f tail r).1

/-- `args_string` from `src/args.h`: returns the result (`none` models the C
`NULL`) together with the argument vector after the call (quote stripping
mutates the backing storage). -/
def args_string (argv : List CStr) (arg : CStr) : Option CStr × List CStr :=
  match argv with
  | [] => (none, [])
  | a0 :: tail =>
    ((strFlags (splitFlags arg) tail none).1,
     a0 :: (strFlags (splitFlags arg) tail none).2)

/-- the value the `=`-form branch of `args_string` captures from the suffix
`v` after `'='`: quoted run when `v` starts with a quote, else `v` itself. -/
def strValue (v : CStr) : CStr :=
  match v with
  | [] => v
  | v0 :: q => if v0 = '"' then quoteCap q else v

/-! ### Basic facts about the string helpers -/

theorem isPrefixOf_true_iff {f c : CStr} : f.isPrefixOf c = true ↔ f <+: c :=
  List.isPrefixOf_iff_prefix

theorem beq_self_flag (f : CStr) : (f == f) = true := by simp

theorem head_beq_false {f c : CStr} (h : f.isPrefixOf c = false) : (c == f) = false := by
  cases hb : c == f with
  | false => rfl
  | true =>
    have hc : c = f := eq_of_beq hb
    subst hc
    rw [isPrefixOf_true_iff.mpr (List.prefix_refl c)] at h
    cases h

theorem afterEq_none_iff {f : CStr} : afterEq f = none ↔ '=' ∉ f := by
  induction f with
  | nil => simp [afterEq]
  | cons c cs ih =>
    by_cases hc : c = '='
    · subst hc; simp [afterEq]
    · simp [afterEq, hc, ih, Ne.symm hc]

theorem beforeEq_no_eq (c : CStr) : '=' ∉ beforeEq c := by
  induction c with
  | nil => simp [beforeEq]
  | cons a cs ih =>
    by_cases ha : a = '='
    · subst ha; simp [beforeEq]
    · simp [beforeEq, ha, ih, Ne.symm ha]

theorem beforeEq_afterEq {c v : CStr} (h : afterEq c = some v) :
    beforeEq c ++ '=' :: v = c := by
  induction c with
  | nil => simp [afterEq] at h
  | cons a cs ih =>
    by_cases ha : a = '='
    · subst ha
      simp [afterEq] at h
      simp [beforeEq, h]
    · simp [afterEq, ha] at h
      simp [beforeEq, ha, ih h]

theorem afterEq_append {b t : CStr} (hb : '=' ∉ b) : afterEq (b ++ '=' :: t) = some t := by
  induction b with
  | nil => simp [afterEq]
  | cons a bs ih =>
    simp only [List.mem_cons, not_or] at hb
    simpa [afterEq, Ne.symm hb.1] using ih hb.2

theorem prefix_through_eq {f : CStr} (hf : '=' ∉ f) (b t : CStr) :
    f.isPrefixOf (b ++ '=' :: t) = f.isPrefixOf b := by
  induction f generalizing b with
  | nil => simp [List.isPrefixOf]
  | cons x xs ih =>
    simp only [List.mem_cons, not_or] at hf
    cases b with
    | nil => simp [List.isPrefixOf, Ne.symm hf.1]
    | cons d bs => simp [List.isPrefixOf, ih hf.2]

theorem eq_form_ne_flag {f : CStr} (hf : afterEq f = none) {b t : CStr} (hb : '=' ∉ b) :
    ((b ++ '=' :: t) == f) = false := by
  cases hq : (b ++ '=' :: t) == f with
  | false => rfl
  | true =>
    have : b ++ '=' :: t = f := eq_of_beq hq
    rw [← this, afterEq_append hb] at hf
    cases hf

theorem quoteCapPre (q : CStr) : quoteCap q <+: q := List.takeWhile_prefix _

theorem quoteCap_no_quote (q : CStr) : '"' ∉ quoteCap q := by
  intro hmem
  have := List.mem_takeWhile_imp hmem
  simp at this

theorem quoteCap_of_no_quote {q : CStr} (h : '"' ∉ q) : quoteCap q = q := by
  induction q with
  | nil => rfl
  | cons a t ih =>
    simp only [List.mem_cons, not_or] at h
    simp [quoteCap, Ne.symm h.1] at ih ⊢
    exact ih h.2

theorem quoteCap_idem (q : CStr) : quoteCap (quoteCap q) = quoteCap q :=
  quoteCap_of_no_quote (quoteCap_no_quote q)

theorem drop_quoteCap (q : CStr) :
    q.drop (quoteCap q).length = q.dropWhile (fun c => c ≠ '"') := by
  have h : quoteCap q ++ q.dropWhile (fun c => c ≠ '"') = q :=
    List.takeWhile_append_dropWhile _ q
  have hd := List.drop_left (quoteCap q) (q.dropWhile (fun c => c ≠ '"'))
  rw [h] at hd
  exact hd

theorem dropWhile_head_quote {q : CStr} (h : '"' ∈ q) :
    (q.dropWhile (fun c => c ≠ '"')).head? = some '"' := by
  induction q with
  | nil => simp at h
  | cons a t ih =>
    by_cases ha : a = '"'
    · subst ha; simp [List.dropWhile]
    · simp only [List.mem_cons] at h
      rcases h with h | h
      · exact absurd h.symm ha
      · simpa [List.dropWhile, ha] using ih h

/-! ### No-match lemmas: a token never prefix-matched contributes nothing -/

theorem boolScan_no_match {f : CStr} :
    ∀ {l : List CStr}, (∀ b ∈ l, f.isPrefixOf b = false) → boolScan f l = none := by
  intro l
  induction l with
  | nil => intro _; rfl
  | cons c rest ih =>
    intro h
    have hc := h c (List.mem_cons_self c rest)
    have hrest : ∀ b ∈ rest, f.isPrefixOf b = false := fun b hb => h b (List.mem_cons_of_mem c hb)
    simp [boolScan, head_beq_false hc, hc, ih hrest]

theorem boolScan_skip {f : CStr} :
    ∀ {pre : List CStr}, (∀ b ∈ pre, f.isPrefixOf b = false) →
      ∀ l, boolScan f (pre ++ l) = boolScan f l := by
  intro pre
  induction pre with
  | nil => intro _ l; rfl
  | cons c rest ih =>
    intro h l
    have hc := h c (List.mem_cons_self c rest)
    have hrest : ∀ b ∈ rest, f.isPrefixOf b = false := fun b hb => h b (List.mem_cons_of_mem c hb)
    simp [boolScan, head_beq_false hc, hc, ih hrest]

theorem boolScan_exact (f : CStr) (rest : List CStr) :
    boolScan f (f :: rest) = some (classifyNext rest) := by
  simp [boolScan]

theorem numScan_no_match {α : Type} {parse : CStr → α} {f : CStr} :
    ∀ {l : List CStr}, (∀ b ∈ l, f.isPrefixOf b = false) → ∀ r, numScan parse f l r = r := by
  intro l
  induction l with
  | nil => intro _ r; rfl
  | cons c rest ih =>
    intro h r
    have hc := h c (List.mem_cons_self c rest)
    have hrest : ∀ b ∈ rest, f.isPrefixOf b = false := fun b hb => h b (List.mem_cons_of_mem c hb)
    simp [numScan, head_beq_false hc, hc, ih hrest]

theorem strScan_no_match {f : CStr} :
    ∀ {l : List CStr}, (∀ b ∈ l, f.isPrefixOf b = false) → ∀ r, strScan f l r = (r, l) := by
  intro l
  induction l with
  | nil => intro _ r; rfl
  | cons c rest ih =>
    intro h r
    have hc := h c (List.mem_cons_self c rest)
    have hrest : ∀ b ∈ rest, f.isPrefixOf b = false := fun b hb => h b (List.mem_cons_of_mem c hb)
    simp [strScan, head_beq_false hc, strCell, hc, ih hrest]

theorem boolFlags_no_match {tail : List CStr} :
    ∀ {fs : List CStr}, (∀ f ∈ fs, ∀ b ∈ tail, f.isPrefixOf b = false) →
      boolFlags fs tail = false := by
  intro fs
  induction fs with
  | nil => intro _; rfl
  | cons f rest ih =>
    intro h
    have hf := boolScan_no_match (h f (List.mem_cons_self f rest))
    have hrest := ih fun g hg => h g (List.mem_cons_of_mem f hg)
    simp [boolFlags, hf, hrest]

theorem numFlags_no_match {α : Type} {parse : CStr → α} {tail : List CStr} :
    ∀ {fs : List CStr}, (∀ f ∈ fs, ∀ b ∈ tail, f.isPrefixOf b = false) →
      ∀ r, numFlags parse fs tail r = r := by
  intro fs
  induction fs with
  | nil => intro _ r; rfl
  | cons f rest ih =>
    intro h r
    have hf : ∀ r : α, numScan parse f tail r = r :=
      numScan_no_match (h f (List.mem_cons_self f rest))
    have hrest := ih fun g hg => h g (List.mem_cons_of_mem f hg)
    simp only [numFlags, List.foldl_cons] at *
    rw [hf r, hrest]

theorem strFlags_no_match {tail : List CStr} :
    ∀ {fs : List CStr}, (∀ f ∈ fs, ∀ b ∈ tail, f.isPrefixOf b = false) →
      ∀ r, strFlags fs tail r = (r, tail) := by
  intro fs
  induction fs with
  | nil => intro _ r; rfl
  | cons f rest ih =>
    intro h r
    have hf := strScan_no_match (h f (List.mem_cons_self f rest))
    have hrest := ih fun g hg => h g (List.mem_cons_of_mem f hg)
    simp [strFlags, hf, hrest]

/-- **C2** Default-on-absence: when no alias token of the spec prefix-matches
any scanned argument (so neither the exact-match branch nor the `=`-form
branch can fire; this includes the uninitialized store, modelled by
`argv = []`), `args_bool` returns `false`, `args_int` returns `0`,
`args_float` returns its zero initializer for every conversion function, and
`args_string` returns the absent result `none` and leaves the vector intact.
All four queries are total functions: no error is ever raised. -/
theorem defaults_on_absence (argv : List CStr) (arg : CStr) {α : Type}
    (parse : CStr → α) (z : α)
    (h : ∀ f ∈ splitFlags arg, ∀ b ∈ argv.drop 1, f.isPrefixOf b = false) :
    args_bool argv arg = false ∧ args_int argv arg = 0 ∧
    args_float parse z argv arg = z ∧ args_string argv arg = (none, argv) := by
  refine ⟨boolFlags_no_match h, numFlags_no_match h 0, numFlags_no_match h z, ?_⟩
  cases argv with
  | nil => rfl
  | cons a0 tail =>
    have h' : ∀ f ∈ splitFlags arg, ∀ b ∈ tail, f.isPrefixOf b = false := by
      simpa using h
    simp [args_string, strFlags_no_match h' none]

/-- Witness for `defaults_on_absence` at a concrete vector and spec. -/
theorem defaults_on_absence_witness :
    (∀ f ∈ splitFlags "-h|--help".toList,
        ∀ b ∈ (["prog".toList, "-x".toList, "run".toList].drop 1), f.isPrefixOf b = false) ∧
    (args_bool ["prog".toList, "-x".toList, "run".toList] "-h|--help".toList = false ∧
     args_int ["prog".toList, "-x".toList, "run".toList] "-h|--help".toList = 0 ∧
     args_float atoi 0 ["prog".toList, "-x".toList, "run".toList] "-h|--help".toList = 0 ∧
     args_string ["prog".toList, "-x".toList, "run".toList] "-h|--help".toList =
       (none, ["prog".toList, "-x".toList, "run".toList])) :=
  ⟨by decide, defaults_on_absence _ _ atoi 0 (by decide)⟩

theorem boolFlags_single (f : CStr) (tail : List CStr) :
    boolFlags [f] tail = (boolScan f tail).getD false := by
  cases h : boolScan f tail <;> simp [boolFlags, h]

theorem boolScan_cons_eq_neutral {f a v : CStr} (hb : (a == f) = false)
    (hp : f.isPrefixOf a = true) (hv : afterEq a = some v) (ht : isTrueCS v = false)
    (hfa : isFalseCS v = false) (l : List CStr) :
    boolScan f (a :: l) = boolScan f l := by
  simp [boolScan, hb, hp, hv, ht, hfa]

theorem isTrueCI_of_lower {v : CStr} (hv : lowerStr v ∈ trueWords) : isTrueCI v = true := by
  have : trueWords = ["true".toList, "on".toList, "yes".toList, "y".toList, "1".toList] := by
    decide
  rw [this] at hv
  simp only [List.mem_cons, List.not_mem_nil, or_false] at hv
  rcases hv with h | h | h | h | h <;> · simp only [isTrueCI, eqCI, h]; decide

/-- **C3** `args_bool` bare-form semantics: at the first scanned position
whose argument exactly equals the (single) alias token, the following
argument is classified case-insensitively against the truthy and falsy word
sets — truthy gives `true`, falsy gives `false`, and a missing or
unrecognized follower falls back to bare presence `true` (`classifyNext`).
The two concrete cases of the claim are included. -/
theorem bool_bare_form (arg f a0 : CStr) (pre rest : List CStr)
    (hf : splitFlags arg = [f])
    (hpre : ∀ b ∈ pre, f.isPrefixOf b = false) :
    args_bool (a0 :: pre ++ f :: rest) arg = classifyNext rest ∧
    args_bool ["prog".toList, "--flag".toList] "--flag".toList = true ∧
    args_bool ["prog".toList, "--flag".toList, "off".toList] "--flag".toList = false := by
  refine ⟨?_, by decide, by decide⟩
  show boolFlags (splitFlags arg) (pre ++ f :: rest) = classifyNext rest
  rw [hf, boolFlags_single, boolScan_skip hpre, boolScan_exact]
  rfl

/-- Witness for `bool_bare_form`. -/
theorem bool_bare_form_witness :
    splitFlags "--flag".toList = ["--flag".toList] ∧
    (∀ b ∈ (["-v".toList] : List CStr), "--flag".toList.isPrefixOf b = false) ∧
    (args_bool ("prog".toList :: ["-v".toList] ++ "--flag".toList :: ["off".toList])
        "--flag".toList = classifyNext ["off".toList] ∧
     args_bool ["prog".toList, "--flag".toList] "--flag".toList = true ∧
     args_bool ["prog".toList, "--flag".toList, "off".toList] "--flag".toList = false) :=
  ⟨by decide, by decide,
    bool_bare_form "--flag".toList "--flag".toList "prog".toList ["-v".toList]
      ["off".toList] (by decide) (by decide)⟩

/-- **C4** Case-sensitivity asymmetry of `args_bool`: a follower token that is
a case variant of a truthy word (its `tolower` image is in the truthy set)
makes the bare form return `true`, while the very same characters as the
suffix after `=` match neither set when they are not an exact (case-sensitive)
member, so the `=`-form falls through and the query returns `false`.
Instantiated by the claim's example `"TRUE"`. -/
theorem bool_case_asymmetry (v : CStr)
    (hv : lowerStr v ∈ trueWords) (ht : isTrueCS v = false) (hfa : isFalseCS v = false) :
    args_bool ["prog".toList, "--flag".toList, v] "--flag".toList = true ∧
    args_bool ["prog".toList, "--flag".toList ++ '=' :: v] "--flag".toList = false ∧
    args_bool ["prog".toList, "--flag".toList, "TRUE".toList] "--flag".toList = true ∧
    args_bool ["prog".toList, "--flag=TRUE".toList] "--flag".toList = false := by
  refine ⟨?_, ?_, by decide, by decide⟩
  · show boolFlags (splitFlags "--flag".toList) ("--flag".toList :: [v]) = true
    rw [show splitFlags "--flag".toList = ["--flag".toList] from by decide,
      boolFlags_single, boolScan_exact]
    show (if isTrueCI v then true else if isFalseCI v then false else true) = true
    rw [isTrueCI_of_lower hv]
    rfl
  · have hne : ((("--flag".toList : CStr) ++ '=' :: v) == "--flag".toList) = false :=
      eq_form_ne_flag (by decide) (by decide)
    have hpre : ("--flag".toList : CStr).isPrefixOf ("--flag".toList ++ '=' :: v) = true :=
      isPrefixOf_true_iff.mpr (List.prefix_append _ _)
    have hae : afterEq (("--flag".toList : CStr) ++ '=' :: v) = some v :=
      afterEq_append (by decide)
    show boolFlags (splitFlags "--flag".toList) [("--flag".toList : CStr) ++ '=' :: v] = false
    rw [show splitFlags "--flag".toList = ["--flag".toList] from by decide,
      boolFlags_single, boolScan_cons_eq_neutral hne hpre hae ht hfa]
    rfl

/-- Witness for `bool_case_asymmetry` at `v = "TRUE"`. -/
theorem bool_case_asymmetry_witness :
    lowerStr "TRUE".toList ∈ trueWords ∧ isTrueCS "TRUE".toList = false ∧
    isFalseCS "TRUE".toList = false ∧
    (args_bool ["prog".toList, "--flag".toList, "TRUE".toList] "--flag".toList = true ∧
     args_bool ["prog".toList, "--flag".toList ++ '=' :: "TRUE".toList] "--flag".toList = false ∧
     args_bool ["prog".toList, "--flag".toList, "TRUE".toList] "--flag".toList = true ∧
     args_bool ["prog".toList, "--flag=TRUE".toList] "--flag".toList = false) :=
  ⟨by decide, by decide, by decide,
    bool_case_asymmetry "TRUE".toList (by decide) (by decide) (by decide)⟩

/-- **C10** (implicit) In the `=`-form branch of `args_bool` a matched
argument whose suffix after `=` is neither a truthy nor a falsy word
contributes nothing: it is not treated as bare presence, the scan just
continues past it, and with `"--flag=maybe"` as the only flag-shaped token
the query returns `false`. -/
theorem bool_eq_form_neutral (arg f a0 v a : CStr) (post : List CStr)
    (hf : splitFlags arg = [f])
    (hp : f.isPrefixOf a = true) (hne : a ≠ f)
    (hv : afterEq a = some v) (ht : isTrueCS v = false) (hfa : isFalseCS v = false) :
    args_bool (a0 :: a :: post) arg = args_bool (a0 :: post) arg ∧
    args_bool ["prog".toList, "--flag=maybe".toList] "--flag".toList = false := by
  refine ⟨?_, by decide⟩
  have hb : (a == f) = false := beq_false_of_ne hne
  show boolFlags (splitFlags arg) (a :: post) = args_bool (a0 :: post) arg
  rw [hf, boolFlags_single, boolScan_cons_eq_neutral hb hp hv ht hfa]
  show (boolScan f post).getD false = boolFlags (splitFlags arg) post
  rw [hf, boolFlags_single]

/-- Witness for `bool_eq_form_neutral`. -/
theorem bool_eq_form_neutral_witness :
    splitFlags "--flag".toList = ["--flag".toList] ∧
    ("--flag".toList : CStr).isPrefixOf "--flag=maybe".toList = true ∧
    ("--flag=maybe".toList : CStr) ≠ "--flag".toList ∧
    afterEq "--flag=maybe".toList = some "maybe".toList ∧
    isTrueCS "maybe".toList = false ∧ isFalseCS "maybe".toList = false ∧
    (args_bool ["prog".toList, "--flag=maybe".toList, "on".toList] "--flag".toList =
        args_bool ["prog".toList, "on".toList] "--flag".toList ∧
     args_bool ["prog".toList, "--flag=maybe".toList] "--flag".toList = false) :=
  ⟨by decide, by decide, by decide, by decide, by decide, by decide,
    bool_eq_form_neutral "--flag".toList "--flag".toList "prog".toList "maybe".toList
      "--flag=maybe".toList ["on".toList] (by decide) (by decide) (by decide) (by decide)
      (by decide) (by decide)⟩

/-! ### Scan lemmas for the numeric and string queries -/

theorem numScan_skip {α : Type} {parse : CStr → α} {f : CStr} :
    ∀ {pre : List CStr}, (∀ b ∈ pre, f.isPrefixOf b = false) →
      ∀ l r, numScan parse f (pre ++ l) r = numScan parse f l r := by
  intro pre
  induction pre with
  | nil => intro _ l r; rfl
  | cons c rest ih =>
    intro h l r
    have hc := h c (List.mem_cons_self c rest)
    have hrest : ∀ b ∈ rest, f.isPrefixOf b = false := fun b hb => h b (List.mem_cons_of_mem c hb)
    simp [numScan, head_beq_false hc, hc, ih hrest]

theorem numScan_exact {α : Type} (parse : CStr → α) (f next : CStr) (post : List CStr) (r : α) :
    numScan parse f (f :: next :: post) r =
      numScan parse f (next :: post) (if firstIsDigit next then parse next else r) := by
  simp [numScan]

theorem numScan_last {α : Type} {parse : CStr → α} {f e v : CStr} {post : List CStr}
    (hb : (e == f) = false) (hp : f.isPrefixOf e = true) (hv : afterEq e = some v)
    (hpost : ∀ b ∈ post, f.isPrefixOf b = false) :
    ∀ (xs : List CStr) (r : α), numScan parse f (xs ++ e :: post) r = parse v := by
  intro xs
  induction xs with
  | nil =>
    intro r
    show numScan parse f (e :: post) r = parse v
    simp only [numScan, hb, hp, hv]
    simp [numScan_no_match hpost]
  | cons c rest ih =>
    intro r
    show numScan parse f (c :: (rest ++ e :: post)) r = parse v
    simp only [numScan]
    exact ih _

theorem numFlags_single {α : Type} (parse : CStr → α) (f : CStr) (tail : List CStr) (r : α) :
    numFlags parse [f] tail r = numScan parse f tail r := rfl

theorem strScan_cons (f c : CStr) (rest : List CStr) (r : Option CStr) :
    strScan f (c :: rest) r =
      ((strScan f rest (if c == f && !rest.isEmpty then some (rest.headD [])
          else (strCell f c r).1)).1,
       (if c == f && !rest.isEmpty then c else (strCell f c r).2) ::
         (strScan f rest (if c == f && !rest.isEmpty then some (rest.headD [])
           else (strCell f c r).1)).2) := by
  show (let p := if c == f && !rest.isEmpty then (some (rest.headD []), c) else strCell f c r
        let q := strScan f rest p.1
        (q.1, p.2 :: q.2)) = _
  by_cases h : (c == f && !rest.isEmpty) = true
  · simp only [h, if_true]
  · simp [eq_false_of_ne_true h]

theorem strCell_fst_assign {f e v : CStr} (hp : f.isPrefixOf e = true)
    (hv : afterEq e = some v) (r : Option CStr) :
    (strCell f e r).1 = some (strValue v) := by
  cases v with
  | nil => simp [strCell, hp, hv, strValue]
  | cons v0 q =>
    by_cases h0 : v0 = '"'
    · subst h0; simp [strCell, hp, hv, strValue]
    · simp [strCell, hp, hv, strValue, h0]

theorem strScan_fst_last {f e v : CStr} {post : List CStr}
    (hb : (e == f) = false) (hp : f.isPrefixOf e = true) (hv : afterEq e = some v)
    (hpost : ∀ b ∈ post, f.isPrefixOf b = false) :
    ∀ (xs : List CStr) (r : Option CStr),
      (strScan f (xs ++ e :: post) r).1 = some (strValue v) := by
  intro xs
  induction xs with
  | nil =>
    intro r
    rw [List.nil_append, strScan_cons]
    simp [hb, strCell_fst_assign hp hv r, strScan_no_match hpost]
  | cons c rest ih =>
    intro r
    rw [List.cons_append, strScan_cons]
    exact ih _

theorem strFlags_single (f : CStr) (tail : List CStr) (r : Option CStr) :
    strFlags [f] tail r = ((strScan f tail r).1, (strScan f tail r).2) := rfl

/-- **C5** Numeric capture: in the exact-match form the following argument is
captured only when its first character is a decimal digit (`firstIsDigit`) —
otherwise the result keeps its prior value, so a leading `-` is never
captured — while in the `=`-form the suffix after `=` is parsed
unconditionally.  Stated for `args_int` and generically for `args_float`,
together with the claim's two concrete examples. -/
theorem numeric_capture (arg f a0 next e v : CStr) (pre post pre2 post2 : List CStr)
    {α : Type} (parse : CStr → α) (z : α)
    (hf : splitFlags arg = [f])
    (hpre : ∀ b ∈ pre, f.isPrefixOf b = false)
    (hnp : ∀ b ∈ next :: post, f.isPrefixOf b = false)
    (hb : (e == f) = false) (hep : f.isPrefixOf e = true) (hev : afterEq e = some v)
    (hpost2 : ∀ b ∈ post2, f.isPrefixOf b = false) :
    args_int (a0 :: pre ++ f :: next :: post) arg =
      (if firstIsDigit next then atoi next else 0) ∧
    args_float parse z (a0 :: pre ++ f :: next :: post) arg =
      (if firstIsDigit next then parse next else z) ∧
    args_int (a0 :: pre2 ++ e :: post2) arg = atoi v ∧
    args_float parse z (a0 :: pre2 ++ e :: post2) arg = parse v ∧
    args_int ["prog".toList, "--count=42".toList] "-c|--count".toList = 42 ∧
    args_int ["prog".toList, "--count".toList, "-5".toList] "--count".toList = 0 := by
  refine ⟨?_, ?_, ?_, ?_, by decide, by decide⟩
  · show numFlags atoi (splitFlags arg) (pre ++ f :: next :: post) 0 = _
    rw [hf, numFlags_single, numScan_skip hpre, numScan_exact, numScan_no_match hnp]
  · show numFlags parse (splitFlags arg) (pre ++ f :: next :: post) z = _
    rw [hf, numFlags_single, numScan_skip hpre, numScan_exact, numScan_no_match hnp]
  · show numFlags atoi (splitFlags arg) (pre2 ++ e :: post2) 0 = _
    rw [hf, numFlags_single, numScan_last hb hep hev hpost2]
  · show numFlags parse (splitFlags arg) (pre2 ++ e :: post2) z = _
    rw [hf, numFlags_single, numScan_last hb hep hev hpost2]

/-- Witness for `numeric_capture`. -/
theorem numeric_capture_witness :
    splitFlags "--count".toList = ["--count".toList] ∧
    (("--count=7".toList : CStr) == "--count".toList) = false ∧
    ("--count".toList : CStr).isPrefixOf "--count=7".toList = true ∧
    afterEq "--count=7".toList = some "7".toList ∧
    (args_int ("prog".toList :: [] ++ "--count".toList :: "-5".toList :: []) "--count".toList =
        (if firstIsDigit "-5".toList then atoi "-5".toList else 0) ∧
     args_float atoi 0 ("prog".toList :: [] ++ "--count".toList :: "-5".toList :: [])
        "--count".toList = (if firstIsDigit "-5".toList then atoi "-5".toList else 0) ∧
     args_int ("prog".toList :: [] ++ "--count=7".toList :: []) "--count".toList =
        atoi "7".toList ∧
     args_float atoi 0 ("prog".toList :: [] ++ "--count=7".toList :: []) "--count".toList =
        atoi "7".toList ∧
     args_int ["prog".toList, "--count=42".toList] "-c|--count".toList = 42 ∧
     args_int ["prog".toList, "--count".toList, "-5".toList] "--count".toList = 0) :=
  ⟨by decide, by decide, by decide, by decide,
    numeric_capture "--count".toList "--count".toList "prog".toList "-5".toList
      "--count=7".toList "7".toList [] [] [] [] atoi 0 (by decide) (by decide) (by decide)
      (by decide) (by decide) (by decide) (by decide)⟩

theorem strScan_fst_exact {f next : CStr} {rest : List CStr}
    (hafter : ∀ b ∈ next :: rest, f.isPrefixOf b = false) :
    ∀ (xs : List CStr) (r : Option CStr),
      (strScan f (xs ++ f :: next :: rest) r).1 = some next := by
  intro xs
  induction xs with
  | nil =>
    intro r
    rw [List.nil_append, strScan_cons]
    simp [strScan_no_match hafter]
  | cons c t ih =>
    intro r
    rw [List.cons_append, strScan_cons]
    exact ih _

/-- **C6** `args_string` exact-match capture: at an argument exactly equal to
the alias token with a following argument present, exactly that immediately
following token is captured verbatim (even if it looks like another flag),
provided no later argument matches and overrides it.  Includes the claim's
example, where `"Smith"` is not captured. -/
theorem string_exact_capture (arg f a0 next : CStr) (pre rest : List CStr)
    (hf : splitFlags arg = [f])
    (hafter : ∀ b ∈ next :: rest, f.isPrefixOf b = false) :
    (args_string (a0 :: pre ++ f :: next :: rest) arg).1 = some next ∧
    (args_string ["prog".toList, "--name".toList, "John".toList, "Smith".toList]
        "--name".toList).1 = some "John".toList := by
  refine ⟨?_, by decide⟩
  show (strFlags (splitFlags arg) (pre ++ f :: next :: rest) none).1 = some next
  rw [hf, strFlags_single]
  exact strScan_fst_exact hafter pre none

/-- Witness for `string_exact_capture`. -/
theorem string_exact_capture_witness :
    splitFlags "--name".toList = ["--name".toList] ∧
    (∀ b ∈ ["John".toList, "Smith".toList],
        ("--name".toList : CStr).isPrefixOf b = false) ∧
    ((args_string ("prog".toList :: ["-v".toList] ++ "--name".toList :: "John".toList ::
        ["Smith".toList]) "--name".toList).1 = some "John".toList ∧
     (args_string ["prog".toList, "--name".toList, "John".toList, "Smith".toList]
        "--name".toList).1 = some "John".toList) :=
  ⟨by decide, by decide,
    string_exact_capture "--name".toList "--name".toList "prog".toList "John".toList
      ["-v".toList] ["Smith".toList] (by decide) (by decide)⟩

/-- **C7** `args_string` quoted `=`-form capture: when the suffix after `=`
begins with a quote, the result is the run of characters after the opening
quote up to the next quote or end of string (`quoteCap`, supporting embedded
spaces), and when a terminating quote exists it is erased from the
argument's backing storage (the cell is truncated right at that quote).
Includes the claim's example. -/
theorem string_quoted_capture (arg f a0 a q : CStr)
    (hf : splitFlags arg = [f]) (hp : f.isPrefixOf a = true)
    (hv : afterEq a = some ('"' :: q)) :
    args_string [a0, a] arg =
      (some (quoteCap q),
       [a0, if '"' ∈ q then beforeEq a ++ '=' :: '"' :: quoteCap q else a]) ∧
    args_string ["prog".toList, "--name=\"John Smith\"".toList] "--name".toList =
      (some "John Smith".toList, ["prog".toList, "--name=\"John Smith".toList]) := by
  refine ⟨?_, by decide⟩
  have hcell : strCell f a none =
      (some (quoteCap q), if '"' ∈ q then beforeEq a ++ '=' :: '"' :: quoteCap q else a) := by
    simp [strCell, hp, hv]
  have hscan : strScan f [a] none =
      (some (quoteCap q), [if '"' ∈ q then beforeEq a ++ '=' :: '"' :: quoteCap q else a]) := by
    rw [strScan_cons]
    simp [strScan, hcell]
  show ((strFlags (splitFlags arg) [a] none).1,
        a0 :: (strFlags (splitFlags arg) [a] none).2) = _
  rw [hf, strFlags_single, hscan]

/-- Witness for `string_quoted_capture`. -/
theorem string_quoted_capture_witness :
    splitFlags "--name".toList = ["--name".toList] ∧
    ("--name".toList : CStr).isPrefixOf "--name=\"John Smith\"".toList = true ∧
    afterEq "--name=\"John Smith\"".toList = some ('"' :: "John Smith\"".toList) ∧
    (args_string ["prog".toList, "--name=\"John Smith\"".toList] "--name".toList =
       (some (quoteCap "John Smith\"".toList),
        ["prog".toList,
         if '"' ∈ "John Smith\"".toList then
           beforeEq "--name=\"John Smith\"".toList ++ '=' :: '"' ::
             quoteCap "John Smith\"".toList
         else "--name=\"John Smith\"".toList]) ∧
     args_string ["prog".toList, "--name=\"John Smith\"".toList] "--name".toList =
       (some "John Smith".toList, ["prog".toList, "--name=\"John Smith".toList])) :=
  ⟨by decide, by decide, by decide,
    string_quoted_capture "--name".toList "--name".toList "prog".toList
      "--name=\"John Smith\"".toList "John Smith\"".toList (by decide) (by decide) (by decide)⟩

/-- **C1 counterexample**: the vector `["prog", "--flag", "--flag=0"]` with
spec `"--flag"` contains an exact-match token and, later in the vector, an
`=`-form token whose suffix `"0"` is a falsy word; the claim predicts that
the `=`-form occurrence determines the `=`-form `args_bool` result (`false`),
but `args_bool` returns `true`: its exact-match branch returns early
(`"--flag=0"` is not a recognized follower word, so bare presence wins) and
the later `=`-form token is never consulted. -/
theorem match_priority_cex :
    ("--flag".toList : CStr).isPrefixOf "--flag=0".toList = true ∧
    afterEq "--flag=0".toList = some "0".toList ∧
    isFalseCS "0".toList = true ∧
    args_bool ["prog".toList, "--flag".toList, "--flag=0".toList] "--flag".toList = true := by
  decide

/-- **C1 amended**: when the alias spec is satisfied by both an exact-match
token and a separate `=`-form token later in the vector, the `=`-form
(later-scanned, no-early-exit) occurrence determines the result of
`args_int`, `args_float` and `args_string`; for `args_bool` — in both its
bare and `=`-forms — the first determinate match in scan order wins, so an
earlier exact-match token decides the result (by `classifyNext`) no matter
what `=`-form tokens follow it. -/
theorem match_priority_amended
    (arg f a0 e v : CStr) (pre mid post preB restB : List CStr)
    {α : Type} (parse : CStr → α) (z : α)
    (hf : splitFlags arg = [f])
    (hb : (e == f) = false) (hep : f.isPrefixOf e = true) (hev : afterEq e = some v)
    (hpost : ∀ b ∈ post, f.isPrefixOf b = false)
    (hpreB : ∀ b ∈ preB, f.isPrefixOf b = false) :
    args_int (a0 :: pre ++ f :: mid ++ e :: post) arg = atoi v ∧
    args_float parse z (a0 :: pre ++ f :: mid ++ e :: post) arg = parse v ∧
    (args_string (a0 :: pre ++ f :: mid ++ e :: post) arg).1 = some (strValue v) ∧
    args_bool (a0 :: preB ++ f :: restB) arg = classifyNext restB := by
  have hassoc : (pre ++ f :: mid) ++ e :: post = pre ++ f :: mid ++ e :: post := by
    simp
  refine ⟨?_, ?_, ?_, ?_⟩
  · show numFlags atoi (splitFlags arg) (pre ++ f :: mid ++ e :: post) 0 = atoi v
    rw [hf, numFlags_single, ← hassoc, numScan_last hb hep hev hpost]
  · show numFlags parse (splitFlags arg) (pre ++ f :: mid ++ e :: post) z = parse v
    rw [hf, numFlags_single, ← hassoc, numScan_last hb hep hev hpost]
  · show (strFlags (splitFlags arg) (pre ++ f :: mid ++ e :: post) none).1 = some (strValue v)
    rw [hf, strFlags_single, ← hassoc]
    exact strScan_fst_last hb hep hev hpost _ none
  · show boolFlags (splitFlags arg) (preB ++ f :: restB) = classifyNext restB
    rw [hf, boolFlags_single, boolScan_skip hpreB, boolScan_exact]
    rfl

/-- Witness for `match_priority_amended`. -/
theorem match_priority_amended_witness :
    splitFlags "--flag".toList = ["--flag".toList] ∧
    (("--flag=5".toList : CStr) == "--flag".toList) = false ∧
    ("--flag".toList : CStr).isPrefixOf "--flag=5".toList = true ∧
    afterEq "--flag=5".toList = some "5".toList ∧
    (args_int ("prog".toList :: [] ++ "--flag".toList :: [] ++ "--flag=5".toList :: [])
        "--flag".toList = atoi "5".toList ∧
     args_float atoi 0 ("prog".toList :: [] ++ "--flag".toList :: [] ++ "--flag=5".toList :: [])
        "--flag".toList = atoi "5".toList ∧
     (args_string ("prog".toList :: [] ++ "--flag".toList :: [] ++ "--flag=5".toList :: [])
        "--flag".toList).1 = some (strValue "5".toList) ∧
     args_bool ("prog".toList :: [] ++ "--flag".toList :: ["--flag=0".toList])
        "--flag".toList = classifyNext ["--flag=0".toList]) :=
  ⟨by decide, by decide, by decide, by decide,
    match_priority_amended "--flag".toList "--flag".toList "prog".toList "--flag=5".toList
      "5".toList [] [] [] [] ["--flag=0".toList] atoi 0 (by decide) (by decide) (by decide)
      (by decide) (by decide) (by decide)⟩

/-! ### Frame property of the string query -/

/-- How one cell of the argument vector may evolve across a query: either it
is untouched, or it has been truncated exactly at a `'"'` character (the
terminating quote overwritten by `'\0'`) of an argument that some alias token
of the spec prefix-matched. -/
def cellFrame (flags : List CStr) (nw old : CStr) : Prop :=
  nw = old ∨
  (nw <+: old ∧ (old.drop nw.length).head? = some '"' ∧ ∃ f ∈ flags, f <+: old)

theorem strCell_snd (f c : CStr) (r : Option CStr) : (strCell f c r).2 = mutCell f c := by
  cases hp : f.isPrefixOf c with
  | false => simp [strCell, mutCell, hp]
  | true =>
    cases hv : afterEq c with
    | none => simp [strCell, mutCell, hp, hv]
    | some value =>
      cases value with
      | nil => simp [strCell, mutCell, hp, hv]
      | cons v0 q =>
        by_cases h0 : v0 = '"' <;> simp [strCell, mutCell, hp, hv, h0]

theorem mutCell_strict {f c : CStr} (h : mutCell f c ≠ c) :
    ∃ q, f.isPrefixOf c = true ∧ afterEq c = some ('"' :: q) ∧ '"' ∈ q ∧
      mutCell f c = beforeEq c ++ '=' :: '"' :: quoteCap q := by
  cases hp : f.isPrefixOf c with
  | false => exact absurd (by simp [mutCell, hp]) h
  | true =>
    cases hv : afterEq c with
    | none => exact absurd (by simp [mutCell, hp, hv]) h
    | some value =>
      cases value with
      | nil => exact absurd (by simp [mutCell, hp, hv]) h
      | cons v0 q =>
        by_cases h0 : v0 = '"'
        · subst h0
          by_cases hq : '"' ∈ q
          · exact ⟨q, rfl, rfl, hq, by simp [mutCell, hp, hv, hq]⟩
          · exact absurd (by simp [mutCell, hp, hv, hq]) h
        · exact absurd (by simp [mutCell, hp, hv, h0]) h

theorem drop_append_cons₂ (x y : Char) (u v : CStr) :
    ∀ b : CStr, (b ++ x :: y :: u).drop (b ++ x :: y :: v).length = u.drop v.length := by
  intro b
  induction b with
  | nil => simp [List.drop]
  | cons d bs ih => simp [ih]

theorem mutCell_frame (f c : CStr) :
    mutCell f c = c ∨
    (mutCell f c <+: c ∧ (c.drop (mutCell f c).length).head? = some '"' ∧ f <+: c) := by
  by_cases h : mutCell f c = c
  · exact Or.inl h
  · right
    obtain ⟨q, hp, hv, hq, hm⟩ := mutCell_strict h
    have hdec : beforeEq c ++ '=' :: '"' :: q = c := beforeEq_afterEq hv
    set b := beforeEq c with hb
    refine ⟨?_, ?_, isPrefixOf_true_iff.mp hp⟩
    · obtain ⟨t, ht⟩ := quoteCapPre q
      refine ⟨t, ?_⟩
      calc mutCell f c ++ t = (b ++ '=' :: '"' :: quoteCap q) ++ t := by rw [hm]
        _ = b ++ '=' :: '"' :: (quoteCap q ++ t) := by simp
        _ = b ++ '=' :: '"' :: q := by rw [ht]
        _ = c := hdec
    · rw [hm, ← hdec, drop_append_cons₂, drop_quoteCap]
      exact dropWhile_head_quote hq

theorem strScan_frame (f : CStr) :
    ∀ (l : List CStr) (r : Option CStr),
      List.Forall₂ (fun nw old => nw = old ∨
          (nw <+: old ∧ (old.drop nw.length).head? = some '"' ∧ f <+: old))
        (strScan f l r).2 l := by
  intro l
  induction l with
  | nil => intro r; exact List.Forall₂.nil
  | cons c rest ih =>
    intro r
    rw [strScan_cons]
    refine List.Forall₂.cons ?_ (ih _)
    by_cases h : (c == f && !rest.isEmpty) = true
    · rw [if_pos h]
      exact Or.inl rfl
    · rw [if_neg h, strCell_snd]
      exact mutCell_frame f c

theorem cellFrame_trans {flags : List CStr} :
    ∀ {a b c : CStr}, cellFrame flags b a → cellFrame flags c b → cellFrame flags c a := by
  intro a b c hba hcb
  rcases hcb with rfl | ⟨hcb, hheadcb, hfb⟩
  · exact hba
  rcases hba with rfl | ⟨hba, _, hfa⟩
  · exact Or.inr ⟨hcb, hheadcb, hfb⟩
  · refine Or.inr ⟨hcb.trans hba, ?_, hfa⟩
    obtain ⟨t, ht⟩ := hba
    have hlen : c.length ≤ b.length := hcb.length_le
    have hdrop : a.drop c.length = b.drop c.length ++ t := by
      rw [← ht, List.drop_append_eq_append_drop, Nat.sub_eq_zero_of_le hlen, List.drop_zero]
    cases hb' : b.drop c.length with
    | nil => rw [hb'] at hheadcb; cases hheadcb
    | cons x xs =>
      rw [hb'] at hheadcb
      rw [hdrop, hb']
      simpa using hheadcb

theorem forall₂_comp {R S T : CStr → CStr → Prop}
    (h : ∀ a b c, R b a → S c b → T c a) :
    ∀ {l1 l2 l3 : List CStr}, List.Forall₂ R l2 l1 → List.Forall₂ S l3 l2 →
      List.Forall₂ T l3 l1 := by
  intro l1 l2 l3 h21 h32
  induction h21 generalizing l3 with
  | nil => cases h32; exact List.Forall₂.nil
  | cons hab htail ih =>
    cases h32 with
    | cons hbc htail2 => exact List.Forall₂.cons (h _ _ _ hab hbc) (ih htail2)

theorem strFlags_frame (fs : List CStr) :
    ∀ (l : List CStr) (r : Option CStr),
      List.Forall₂ (cellFrame fs) (strFlags fs l r).2 l := by
  induction fs with
  | nil =>
    intro l r
    exact List.forall₂_same.mpr fun x _ => Or.inl rfl
  | cons f gs ih =>
    intro l r
    have h1 := strScan_frame f l r
    have h2 := ih (strScan f l r).2 (strScan f l r).1
    show List.Forall₂ (cellFrame (f :: gs)) (strFlags gs (strScan f l r).2 (strScan f l r).1).2 l
    refine forall₂_comp (fun a b c hba hcb => ?_) h1 h2
    have hba' : cellFrame (f :: gs) b a := by
      rcases hba with rfl | ⟨h1', h2', h3'⟩
      · exact Or.inl rfl
      · exact Or.inr ⟨h1', h2', f, List.mem_cons_self f gs, h3'⟩
    have hcb' : cellFrame (f :: gs) c b := by
      rcases hcb with rfl | ⟨h1', h2', g, hg, h3'⟩
      · exact Or.inl rfl
      · exact Or.inr ⟨h1', h2', g, List.mem_cons_of_mem f hg, h3'⟩
    exact cellFrame_trans hba' hcb'

/-- **C8** Frame property: `args_bool`, `args_int` and `args_float` contain
no store into the argument vector (their embeddings are pure functions of
it), and `args_string` changes it only cell-by-cell as described by
`cellFrame`: every cell is either unchanged, or (in the quoted `=`-form
branch only) truncated exactly at a `'"'` byte — the terminating quote
overwritten with a string terminator — of an argument prefix-matched by one
of the spec's alias tokens; all other arguments and bytes are unchanged. -/
theorem query_frame (argv : List CStr) (arg : CStr) :
    (args_string argv arg).2.length = argv.length ∧
    ∀ p ∈ (args_string argv arg).2.zip argv, cellFrame (splitFlags arg) p.1 p.2 := by
  cases argv with
  | nil => exact ⟨rfl, by intro p hp; simp [args_string] at hp⟩
  | cons a0 tail =>
    have h := strFlags_frame (splitFlags arg) tail none
    have hz := List.forall₂_iff_zip.mp h
    constructor
    · show (a0 :: (strFlags (splitFlags arg) tail none).2).length = (a0 :: tail).length
      simp [hz.1]
    · intro p hp
      have hp' : p ∈ (a0, a0) ::
          ((strFlags (splitFlags arg) tail none).2.zip tail) := hp
      rcases List.mem_cons.mp hp' with rfl | hmem
      · exact Or.inl rfl
      · obtain ⟨x, y⟩ := p
        exact hz.2 hmem

/-! ### Idempotence machinery for the string query -/

/-- iterated cell mutation: the cell contents after the outer `strtok` loop
has processed the given alias tokens in order. -/
def mutList (fs : List CStr) (c : CStr) : CStr := fs.foldl (fun a g => mutCell g a) c

/-- a cell no alias token can mutate further. -/
def uStable (c : CStr) : Prop := ∀ g, mutCell g c = c

/-- whether the inner loop of `args_string` for alias token `f` executes at
least one assignment to `result` while scanning `l`. -/
def scanAssigns (f : CStr) : List CStr → Bool
  | [] => false
  | c :: rest =>
    (if c == f && !rest.isEmpty then true
     else if f.isPrefixOf c then (afterEq c).isSome else false)
    || scanAssigns f rest

/-- whether any alias token's scan assigns to `result`. -/
def flagsAssign (fs : List CStr) (l : List CStr) : Bool :=
  fs.any (fun f => scanAssigns f l)

theorem strScan_cons_fst (f c : CStr) (rest : List CStr) (r : Option CStr) :
    (strScan f (c :: rest) r).1 =
      (strScan f rest (if c == f && !rest.isEmpty then some (rest.headD [])
        else (strCell f c r).1)).1 := by
  rw [strScan_cons]

theorem strScan_cons_snd (f c : CStr) (rest : List CStr) (r : Option CStr) :
    (strScan f (c :: rest) r).2 =
      (if c == f && !rest.isEmpty then c else (strCell f c r).2) ::
      (strScan f rest (if c == f && !rest.isEmpty then some (rest.headD [])
        else (strCell f c r).1)).2 := by
  rw [strScan_cons]

theorem map_id_of_forall {h : CStr → CStr} :
    ∀ {l : List CStr}, (∀ c ∈ l, h c = c) → l.map h = l := by
  intro l
  induction l with
  | nil => intro _; rfl
  | cons c t ih =>
    intro hl
    show h c :: t.map h = c :: t
    rw [hl c (List.mem_cons_self c t), ih fun x hx => hl x (List.mem_cons_of_mem c hx)]

theorem map_mutList_nil (l : List CStr) : l.map (mutList []) = l :=
  map_id_of_forall fun _ _ => rfl

theorem map_mutList_cons (g : CStr) (gs : List CStr) (l : List CStr) :
    l.map (mutList (g :: gs)) = (l.map (mutCell g)).map (mutList gs) := by
  rw [List.map_map]
  rfl

theorem mutCell_stable_form {b m : CStr} (hb : '=' ∉ b) (hm : '"' ∉ m) (g : CStr) :
    mutCell g (b ++ '=' :: '"' :: m) = b ++ '=' :: '"' :: m := by
  have hae : afterEq (b ++ '=' :: '"' :: m) = some ('"' :: m) := afterEq_append hb
  by_cases hg : g.isPrefixOf (b ++ '=' :: '"' :: m) = true
  · simp [mutCell, hg, hae, hm]
  · simp [mutCell, eq_false_of_ne_true hg]

theorem mutCell_stable_or (f c : CStr) : mutCell f c = c ∨ uStable (mutCell f c) := by
  by_cases h : mutCell f c = c
  · exact Or.inl h
  · right
    obtain ⟨q, hp, hv, hq, hm⟩ := mutCell_strict h
    intro g
    rw [hm]
    exact mutCell_stable_form (beforeEq_no_eq c) (quoteCap_no_quote q) g

theorem mutList_of_uStable {c : CStr} (h : uStable c) : ∀ fs, mutList fs c = c := by
  intro fs
  induction fs with
  | nil => rfl
  | cons g gs ih =>
    show mutList gs (mutCell g c) = c
    rw [h g]
    exact ih

theorem mutList_stable_or (fs : List CStr) :
    ∀ c, mutList fs c = c ∨ uStable (mutList fs c) := by
  induction fs with
  | nil => intro c; exact Or.inl rfl
  | cons g gs ih =>
    intro c
    rcases mutCell_stable_or g c with h | h
    · show mutList gs (mutCell g c) = c ∨ uStable (mutList gs (mutCell g c))
      rw [h]
      exact ih c
    · right
      show uStable (mutList gs (mutCell g c))
      rw [mutList_of_uStable h gs]
      exact h

theorem mutCell_mutList_mem {f : CStr} :
    ∀ {fs : List CStr}, f ∈ fs → ∀ c, mutCell f (mutList fs c) = mutList fs c := by
  intro fs
  induction fs with
  | nil => intro hf; cases hf
  | cons g gs ih =>
    intro hf c
    show mutCell f (mutList gs (mutCell g c)) = mutList gs (mutCell g c)
    rcases List.mem_cons.mp hf with rfl | hmem
    · rcases mutCell_stable_or f c with h | h
      · rw [h]
        rcases mutList_stable_or gs c with h2 | h2
        · rw [h2]; exact h
        · exact h2 f
      · rw [mutList_of_uStable h gs]
        exact h f
    · exact ih hmem (mutCell g c)

theorem mutCell_beq_flag {f : CStr} (hf : afterEq f = none) (g c : CStr) :
    (mutCell g c == f) = (c == f) := by
  by_cases h : mutCell g c = c
  · rw [h]
  · obtain ⟨q, hp, hv, hq, hm⟩ := mutCell_strict h
    have hdec := beforeEq_afterEq hv
    have h1 : (mutCell g c == f) = false := by
      rw [hm]; exact eq_form_ne_flag hf (beforeEq_no_eq c)
    have h2 : (c == f) = false := by
      conv_lhs => rw [← hdec]
      exact eq_form_ne_flag hf (beforeEq_no_eq c)
    rw [h1, h2]

theorem mutCell_isPre {f : CStr} (hf : afterEq f = none) (g c : CStr) :
    f.isPrefixOf (mutCell g c) = f.isPrefixOf c := by
  by_cases h : mutCell g c = c
  · rw [h]
  · obtain ⟨q, hp, hv, hq, hm⟩ := mutCell_strict h
    have hdec := beforeEq_afterEq hv
    have hfne : '=' ∉ f := afterEq_none_iff.mp hf
    rw [hm, prefix_through_eq hfne]
    conv_rhs => rw [← hdec]
    rw [prefix_through_eq hfne]

theorem mutCell_afterEq_isSome (g c : CStr) :
    (afterEq (mutCell g c)).isSome = (afterEq c).isSome := by
  by_cases h : mutCell g c = c
  · rw [h]
  · obtain ⟨q, hp, hv, hq, hm⟩ := mutCell_strict h
    rw [hm, afterEq_append (beforeEq_no_eq c), hv]
    rfl

theorem mutCell_of_nopre {f c : CStr} (h : f.isPrefixOf c = false) : mutCell f c = c := by
  simp [mutCell, h]

theorem mutCell_of_noeq {f c : CStr} (h : afterEq c = none) : mutCell f c = c := by
  by_cases hp : f.isPrefixOf c = true
  · simp [mutCell, hp, h]
  · simp [mutCell, eq_false_of_ne_true hp]

theorem strScan_snd_map {f : CStr} (hf : afterEq f = none) :
    ∀ (l : List CStr) (r : Option CStr), (strScan f l r).2 = l.map (mutCell f) := by
  intro l
  induction l with
  | nil => intro r; rfl
  | cons c rest ih =>
    intro r
    rw [strScan_cons_snd, List.map_cons, ih]
    congr 1
    by_cases h : (c == f && !rest.isEmpty) = true
    · have h2 := h
      simp only [Bool.and_eq_true] at h2
      have hc : c = f := eq_of_beq h2.1
      rw [if_pos h, hc]
      have hpf : f.isPrefixOf f = true := isPrefixOf_true_iff.mpr (List.prefix_refl f)
      simp [mutCell, hpf, hf]
    · rw [if_neg h, strCell_snd]

theorem strFlags_snd_map :
    ∀ {fs : List CStr}, (∀ f ∈ fs, afterEq f = none) →
      ∀ (l : List CStr) (r : Option CStr), (strFlags fs l r).2 = l.map (mutList fs) := by
  intro fs
  induction fs with
  | nil => intro _ l r; exact (map_mutList_nil l).symm
  | cons f gs ih =>
    intro hfs l r
    show (strFlags gs (strScan f l r).2 (strScan f l r).1).2 = _
    rw [ih (fun g hg => hfs g (List.mem_cons_of_mem f hg)) _ _,
      strScan_snd_map (hfs f (List.mem_cons_self f gs)) l r, map_mutList_cons]

theorem strScan_of_no_assign {f : CStr} :
    ∀ {l : List CStr}, scanAssigns f l = false → ∀ r, strScan f l r = (r, l) := by
  intro l
  induction l with
  | nil => intro _ r; rfl
  | cons c rest ih =>
    intro h r
    have h' : (if c == f && !rest.isEmpty then true
        else if f.isPrefixOf c then (afterEq c).isSome else false) = false ∧
        scanAssigns f rest = false := by
      rw [scanAssigns] at h
      simpa using h
    by_cases hx : (c == f && !rest.isEmpty) = true
    · rw [if_pos hx] at h'; cases h'.1
    · rw [if_neg hx] at h'
      by_cases hp : f.isPrefixOf c = true
      · rw [if_pos hp] at h'
        have hv : afterEq c = none := by
          cases hv : afterEq c with
          | none => rfl
          | some v => rw [hv] at h'; cases h'.1
        rw [strScan_cons]
        simp [eq_false_of_ne_true hx, strCell, hp, hv, ih h'.2 r]
      · rw [strScan_cons]
        simp [eq_false_of_ne_true hx, strCell, eq_false_of_ne_true hp, ih h'.2 r]

theorem strScan_fst_indep {f : CStr} :
    ∀ {l : List CStr}, scanAssigns f l = true →
      ∀ r r', (strScan f l r).1 = (strScan f l r').1 := by
  intro l
  induction l with
  | nil => intro h; cases h
  | cons c rest ih =>
    intro h r r'
    rw [strScan_cons_fst, strScan_cons_fst]
    by_cases hx : (c == f && !rest.isEmpty) = true
    · rw [if_pos hx, if_pos hx]
    · rw [if_neg hx, if_neg hx]
      have hhead : (if c == f && !rest.isEmpty then true
          else if f.isPrefixOf c then (afterEq c).isSome else false) = true ∨
          scanAssigns f rest = true := by
        rw [scanAssigns] at h
        simpa using h
      by_cases hp : f.isPrefixOf c = true
      · cases hv : afterEq c with
        | some value =>
          rw [strCell_fst_assign hp hv r, strCell_fst_assign hp hv r']
        | none =>
          have hL : strCell f c r = (r, c) := by simp [strCell, hp, hv]
          have hL' : strCell f c r' = (r', c) := by simp [strCell, hp, hv]
          rw [hL, hL']
          have hrest : scanAssigns f rest = true := by
            rcases hhead with h1 | h1
            · rw [if_neg hx, if_pos hp, hv] at h1; cases h1
            · exact h1
          exact ih hrest r r'
      · have hL : strCell f c r = (r, c) := by simp [strCell, eq_false_of_ne_true hp]
        have hL' : strCell f c r' = (r', c) := by simp [strCell, eq_false_of_ne_true hp]
        rw [hL, hL']
        have hrest : scanAssigns f rest = true := by
          rcases hhead with h1 | h1
          · rw [if_neg hx, if_neg hp] at h1; cases h1
          · exact h1
        exact ih hrest r r'

theorem strScan_snd_indep (f : CStr) :
    ∀ (l : List CStr) (r r' : Option CStr), (strScan f l r).2 = (strScan f l r').2 := by
  intro l
  induction l with
  | nil => intro r r'; rfl
  | cons c rest ih =>
    intro r r'
    rw [strScan_cons_snd, strScan_cons_snd]
    by_cases hx : (c == f && !rest.isEmpty) = true
    · simp only [if_pos hx]
    · simp only [if_neg hx, strCell_snd]
      rw [ih (strCell f c r).1 (strCell f c r').1]

theorem strFlags_of_no_assign :
    ∀ {fs : List CStr} {l : List CStr}, flagsAssign fs l = false →
      ∀ r, strFlags fs l r = (r, l) := by
  intro fs
  induction fs with
  | nil => intro l _ r; rfl
  | cons f gs ih =>
    intro l h r
    have h' : scanAssigns f l = false ∧ flagsAssign gs l = false := by
      have := h
      simp only [flagsAssign, List.any_cons, Bool.or_eq_false_iff] at this
      exact ⟨this.1, this.2⟩
    show strFlags gs (strScan f l r).2 (strScan f l r).1 = (r, l)
    rw [strScan_of_no_assign h'.1 r]
    exact ih h'.2 r

theorem strFlags_snd_indep (fs : List CStr) :
    ∀ (l : List CStr) (r r' : Option CStr), (strFlags fs l r).2 = (strFlags fs l r').2 := by
  induction fs with
  | nil => intro l r r'; rfl
  | cons f gs ih =>
    intro l r r'
    show (strFlags gs (strScan f l r).2 (strScan f l r).1).2 =
      (strFlags gs (strScan f l r').2 (strScan f l r').1).2
    rw [strScan_snd_indep f l r r']
    exact ih _ _ _

theorem strFlags_fst_indep :
    ∀ {fs : List CStr} {l : List CStr}, flagsAssign fs l = true →
      ∀ r r', (strFlags fs l r).1 = (strFlags fs l r').1 := by
  intro fs
  induction fs with
  | nil => intro l h; cases h
  | cons f gs ih =>
    intro l h r r'
    show (strFlags gs (strScan f l r).2 (strScan f l r).1).1 =
      (strFlags gs (strScan f l r').2 (strScan f l r').1).1
    by_cases h1 : scanAssigns f l = true
    · rw [strScan_fst_indep h1 r r', strScan_snd_indep f l r r']
    · have h1' : scanAssigns f l = false := eq_false_of_ne_true h1
      have h2 : flagsAssign gs l = true := by
        have := h
        simp only [flagsAssign, List.any_cons, Bool.or_eq_true] at this
        rcases this with hl | hr
        · exact absurd hl h1
        · simpa [flagsAssign] using hr
      rw [strScan_of_no_assign h1' r, strScan_of_no_assign h1' r']
      exact ih h2 r r'

theorem isEmpty_map (g : CStr → CStr) (l : List CStr) : (l.map g).isEmpty = l.isEmpty := by
  cases l <;> rfl

theorem scanAssigns_map_mutCell {f : CStr} (hf : afterEq f = none) (g : CStr) :
    ∀ l, scanAssigns f (l.map (mutCell g)) = scanAssigns f l := by
  intro l
  induction l with
  | nil => rfl
  | cons c rest ih =>
    show ((if (mutCell g c == f) && !(rest.map (mutCell g)).isEmpty then true
        else if f.isPrefixOf (mutCell g c) then (afterEq (mutCell g c)).isSome else false)
        || scanAssigns f (rest.map (mutCell g))) =
      ((if (c == f) && !rest.isEmpty then true
        else if f.isPrefixOf c then (afterEq c).isSome else false)
        || scanAssigns f rest)
    rw [mutCell_beq_flag hf, mutCell_isPre hf, mutCell_afterEq_isSome, ih,
      isEmpty_map (mutCell g) rest]

theorem scanAssigns_map_mutList {f : CStr} (hf : afterEq f = none) :
    ∀ (gs : List CStr) (l : List CStr),
      scanAssigns f (l.map (mutList gs)) = scanAssigns f l := by
  intro gs
  induction gs with
  | nil => intro l; rw [map_mutList_nil]
  | cons g gs' ih =>
    intro l
    rw [map_mutList_cons, ih, scanAssigns_map_mutCell hf]

theorem flagsAssign_map_mutList :
    ∀ {fs : List CStr}, (∀ f ∈ fs, afterEq f = none) →
      ∀ (gs : List CStr) (l : List CStr),
        flagsAssign fs (l.map (mutList gs)) = flagsAssign fs l := by
  intro fs
  induction fs with
  | nil => intro _ gs l; rfl
  | cons f fs' ih =>
    intro hfs gs l
    show (scanAssigns f (l.map (mutList gs)) || flagsAssign fs' (l.map (mutList gs))) =
      (scanAssigns f l || flagsAssign fs' l)
    rw [scanAssigns_map_mutList (hfs f (List.mem_cons_self f fs')) gs l,
      ih (fun x hx => hfs x (List.mem_cons_of_mem f hx)) gs l]

/-- Key stale-capture lemma: scanning the vector already mutated by the same
(`=`-free) alias token yields the same final `result` as the original scan.
The invariant relates the running results: they are equal, or the original
result holds the pre-mutation value of the cell about to be scanned (an
exact-match lookahead capture) and the other the post-mutation value; if
that cell's own processing does not overwrite both, the two values coincide. -/
theorem strScan_fst_map_inv {f : CStr} (hf : afterEq f = none) :
    ∀ (l : List CStr) (r s : Option CStr),
      (s = r ∨ ∃ v t, l = v :: t ∧ r = some v ∧ s = some (mutCell f v)) →
      (strScan f l r).1 = (strScan f (l.map (mutCell f)) s).1 := by
  intro l
  induction l with
  | nil =>
    intro r s hinv
    rcases hinv with rfl | ⟨v, t, ht, _, _⟩
    · rfl
    · cases ht
  | cons c rest ih =>
    intro r s hinv
    rw [List.map_cons, strScan_cons_fst, strScan_cons_fst, mutCell_beq_flag hf,
      isEmpty_map (mutCell f) rest]
    by_cases hx : (c == f && !rest.isEmpty) = true
    · rw [if_pos hx, if_pos hx]
      cases rest with
      | nil => simp at hx
      | cons x t =>
        rw [List.map_cons, List.headD_cons, List.headD_cons]
        exact ih (some x) (some (mutCell f x)) (Or.inr ⟨x, t, rfl, rfl, rfl⟩)
    · rw [if_neg hx, if_neg hx]
      by_cases hp : f.isPrefixOf c = true
      · cases hv : afterEq c with
        | some value =>
          have hL := strCell_fst_assign hp hv r
          by_cases hm : mutCell f c = c
          · rw [hm]
            have hR := strCell_fst_assign hp hv s
            rw [hL, hR]
            exact ih _ _ (Or.inl rfl)
          · obtain ⟨q, hp', hv', hq, hmm⟩ := mutCell_strict hm
            have hval : value = '"' :: q := by
              rw [hv] at hv'
              exact Option.some.inj hv'
            have hpre2 : f.isPrefixOf (mutCell f c) = true := by
              rw [mutCell_isPre hf]
              exact hp
            have hae2 : afterEq (mutCell f c) = some ('"' :: quoteCap q) := by
              rw [hmm]
              exact afterEq_append (beforeEq_no_eq c)
            have hR := strCell_fst_assign hpre2 hae2 s
            have hveq : strValue ('"' :: quoteCap q) = strValue value := by
              rw [hval]
              simp [strValue, quoteCap_idem]
            rw [hL, hR, hveq]
            exact ih _ _ (Or.inl rfl)
        | none =>
          have hmc : mutCell f c = c := mutCell_of_noeq hv
          have hL : strCell f c r = (r, c) := by simp [strCell, hp, hv]
          have hLs : strCell f c s = (s, c) := by simp [strCell, hp, hv]
          have hsr : s = r := by
            rcases hinv with rfl | ⟨v, t, hvt, hr, hs⟩
            · rfl
            · injection hvt with h1 h2
              rw [hr, hs, ← h1, hmc]
          rw [hmc, hL, hLs, hsr]
          exact ih _ _ (Or.inl rfl)
      · have hp' : f.isPrefixOf c = false := eq_false_of_ne_true hp
        have hmc : mutCell f c = c := mutCell_of_nopre hp'
        have hL : strCell f c r = (r, c) := by simp [strCell, hp']
        have hLs : strCell f c s = (s, c) := by simp [strCell, hp']
        have hsr : s = r := by
          rcases hinv with rfl | ⟨v, t, hvt, hr, hs⟩
          · rfl
          · injection hvt with h1 h2
            rw [hr, hs, ← h1, hmc]
        rw [hmc, hL, hLs, hsr]
        exact ih _ _ (Or.inl rfl)

theorem strFlags_idem :
    ∀ {fs : List CStr}, (∀ f ∈ fs, afterEq f = none) →
      ∀ (l : List CStr) (r : Option CStr),
        strFlags fs (strFlags fs l r).2 r = strFlags fs l r := by
  intro fs
  induction fs with
  | nil => intro _ l r; rfl
  | cons f gs ih =>
    intro hfs l r
    have hf : afterEq f = none := hfs f (List.mem_cons_self f gs)
    have hgs : ∀ g ∈ gs, afterEq g = none := fun g hg => hfs g (List.mem_cons_of_mem f hg)
    rcases h1 : strScan f l r with ⟨r1, l1⟩
    rcases h2 : strFlags gs l1 r1 with ⟨R, L⟩
    have hl1 : l1 = l.map (mutCell f) := by
      have h := strScan_snd_map hf l r
      rw [h1] at h
      exact h
    have hLmap : L = l1.map (mutList gs) := by
      have h := strFlags_snd_map hgs l1 r1
      rw [h2] at h
      exact h
    have hstep : strFlags (f :: gs) l r = (R, L) := by
      show strFlags gs (strScan f l r).2 (strScan f l r).1 = (R, L)
      rw [h1]
      exact h2
    rw [hstep]
    show strFlags gs (strScan f L r).2 (strScan f L r).1 = (R, L)
    have hLcell : ∀ c ∈ L, mutCell f c = c := by
      intro c hc
      rw [hLmap, hl1] at hc
      simp only [List.mem_map] at hc
      obtain ⟨y, ⟨x, hx, rfl⟩, rfl⟩ := hc
      exact mutCell_mutList_mem (List.mem_cons_self f gs) x
    have hsnd : (strScan f L r).2 = L := by
      rw [strScan_snd_map hf L r]
      exact map_id_of_forall hLcell
    rw [hsnd]
    by_cases hA : flagsAssign gs l1 = true
    · have hAL : flagsAssign gs L = true := by
        rw [hLmap, flagsAssign_map_mutList hgs gs l1]
        exact hA
      have hLfix : strFlags gs L r1 = (R, L) := by
        have h3 := ih hgs l1 r1
        rw [h2] at h3
        exact h3
      have e1 : (strFlags gs L (strScan f L r).1).1 = R := by
        rw [strFlags_fst_indep hAL (strScan f L r).1 r1, hLfix]
      have e2 : (strFlags gs L (strScan f L r).1).2 = L := by
        rw [strFlags_snd_indep gs L (strScan f L r).1 r1, hLfix]
      rw [Prod.ext_iff]
      exact ⟨e1, e2⟩
    · have hA' : flagsAssign gs l1 = false := eq_false_of_ne_true hA
      have hno : (R, L) = (r1, l1) := by
        rw [← h2]
        exact strFlags_of_no_assign hA' r1
      have hR : R = r1 := congrArg Prod.fst hno
      have hLl1 : L = l1 := congrArg Prod.snd hno
      have hrho : (strScan f L r).1 = r1 := by
        rw [hLl1, hl1]
        have hmap := (strScan_fst_map_inv hf l r r (Or.inl rfl)).symm
        rw [h1] at hmap
        exact hmap
      have hAL : flagsAssign gs L = false := by
        rw [hLl1]
        exact hA'
      rw [strFlags_of_no_assign hAL, hrho, hR]

/-- **C9 counterexample**: with the alias spec `--name="x"` (a single alias
token that itself contains `=` and quotes — the spec grammar allows arbitrary
token strings) and vector `["prog", "--name=\"x\""]`, the first string query
returns `"x"` and truncates the argument to `--name="x` (quote stripping);
the second identical query then finds no match at all on the mutated vector
and returns the absent result, so the same query twice yields different
results. -/
theorem query_idempotent_cex :
    (args_string ["prog".toList, "--name=\"x\"".toList] "--name=\"x\"".toList).1 =
      some "x".toList ∧
    (args_string (args_string ["prog".toList, "--name=\"x\"".toList] "--name=\"x\"".toList).2
        "--name=\"x\"".toList).1 = none := by
  decide

/-- **C9 amended**: `args_bool`, `args_int` and `args_float` never modify the
argument vector (they are pure functions of it in this embedding, as the
source contains no store), so issuing any of them twice trivially yields the
same result; for `args_string`, issuing the same query twice — the first
call possibly performing the quote-stripping mutation — yields the same
result and the same vector, provided no alias token of the spec contains the
character `=` (for an `=`-carrying alias token the first call's mutation can
destroy the token's own match, see the counterexample). -/
theorem query_idempotent (argv : List CStr) (arg : CStr)
    (hf : ∀ f ∈ splitFlags arg, afterEq f = none) :
    args_string (args_string argv arg).2 arg = args_string argv arg := by
  cases argv with
  | nil => rfl
  | cons a0 tail =>
    have h := strFlags_idem hf tail none
    show ((strFlags (splitFlags arg) ((strFlags (splitFlags arg) tail none).2) none).1,
          a0 :: (strFlags (splitFlags arg) ((strFlags (splitFlags arg) tail none).2) none).2)
        = ((strFlags (splitFlags arg) tail none).1,
           a0 :: (strFlags (splitFlags arg) tail none).2)
    rw [h]

/-- Witness for `query_idempotent`. -/
theorem query_idempotent_witness :
    (∀ f ∈ splitFlags "--name".toList, afterEq f = none) ∧
    args_string (args_string ["prog".toList, "--name=\"John Smith\"".toList]
        "--name".toList).2 "--name".toList =
      args_string ["prog".toList, "--name=\"John Smith\"".toList] "--name".toList :=
  ⟨by decide, query_idempotent _ _ (by decide)⟩

example : args_bool ["prog".toList, "--flag".toList] "--flag".toList = true := by decide
example : args_bool ["prog".toList, "--flag".toList, "off".toList] "--flag".toList = false := by
  decide
example : args_int ["prog".toList, "--count=42".toList] "-c|--count".toList = 42 := by decide
example : args_int ["prog".toList, "--count".toList, "-5".toList] "--count".toList = 0 := by
  decide
example :
    (args_string ["prog".toList, "--name".toList, "John".toList, "Smith".toList]
      "--name".toList).1 = some "John".toList := by decide
example :
    args_string ["prog".toList, "--name=\"John Smith\"".toList] "--name".toList =
      (some "John Smith".toList, ["prog".toList, "--name=\"John Smith".toList]) := by decide
example : args_bool ["prog".toList, "--flag".toList, "--flag=0".toList] "--flag".toList
    = true := by decide
example : args_int ["prog".toList, "--count".toList, "42".toList, "--count=7".toList]
    "--count".toList = 7 := by decide

end ArgsH
